import Mathlib

/-!
Verification of the `mdbook-rust` renderer (`packages/mdbook-rust/src/lib.rs`).

The program walks the syntax tree of a function body (as produced by the
`ra_ap_syntax` parser) and renders it as Markdown: plain comments become
prose, everything else is wrapped in fenced code blocks, with shared
indentation stripped.

Rust strings are modelled as `List Char` (`Str`).  Syntax-tree elements are
modelled by `Elem`: a node with children, or a token carrying its
`SyntaxKind`-abstraction (`TokKind`) and its text.  Every definition below is
a direct translation of the correspondingly named Rust function.
-/

namespace MdbookRust

/-- Rust `String` / `&str`, modelled as a list of characters. -/
abbrev Str := List Char

/-- Shorthand to write `Str` literals. -/
def str (s : String) : Str := s.data

/-- The backtick character (written with an escape so that it can be spoken of
outside string literals). -/
def tick : Char := '\x60'

/-! ## Comment classification

`write_token` and `write_comment` rely on `ra_ap_syntax`'s comment
classification (`ast::Comment::kind`, `ast::Comment::prefix`,
`ast::Comment::is_doc`).  These mirror the `CommentKind::BY_PREFIX` table of
that library: a comment's kind is decided by the first table entry whose
marker is a prefix of the comment text. -/

inductive CommentShape where
  | line
  | block
deriving DecidableEq

inductive CommentPlacement where
  | inner
  | outer
deriving DecidableEq

structure CommentKind where
  shape : CommentShape
  doc : Option CommentPlacement
deriving DecidableEq

/-- `CommentKind::BY_PREFIX` from `ra_ap_syntax`. -/
def byPfx : List (Str × CommentKind) :=
  [ (str "/**/", ⟨.block, none⟩),
    (str "/***", ⟨.block, none⟩),
    (str "////", ⟨.line, none⟩),
    (str "///", ⟨.line, some .outer⟩),
    (str "//!", ⟨.line, some .inner⟩),
    (str "/**", ⟨.block, some .outer⟩),
    (str "/*!", ⟨.block, some .inner⟩),
    (str "//", ⟨.line, none⟩),
    (str "/*", ⟨.block, none⟩) ]

/-- `ast::CommentKind::from_text`: first matching table entry, defaulting to a
plain line comment. -/
def commentKindOf (text : Str) : CommentKind :=
  ((byPfx.find? (fun pk => pk.1.isPrefixOf text)).map Prod.snd).getD ⟨.line, none⟩

/-- `ast::Comment::prefix`: the marker of the first table entry that has this
comment's kind and is a prefix of the text. -/
def commentPfxOf (text : Str) : Str :=
  ((byPfx.find? (fun pk =>
      decide (pk.2 = commentKindOf text) && pk.1.isPrefixOf text)).map Prod.fst).getD []

/-- `ast::Comment::is_doc`. -/
def is_doc (text : Str) : Bool := (commentKindOf text).doc.isSome

/-! ## Syntax-tree elements -/

/-- The abstraction of `SyntaxKind` the renderer inspects: comments,
whitespace, the two block delimiters, and everything else. -/
inductive TokKind where
  | comment
  | whitespace
  | lCurly
  | rCurly
  | other
deriving DecidableEq

structure Token where
  kind : TokKind
  text : Str
deriving DecidableEq

/-- `NodeOrToken<SyntaxNode, SyntaxToken>`: a node with ordered children, or a
token. -/
inductive Elem where
  | node (children : List Elem)
  | token (tok : Token)

mutual

/-- `SyntaxNode::to_string` / `SyntaxToken::to_string`: the source text covered
by an element (a node's text is the concatenation of its children's texts). -/
def elemText : Elem → Str
  | .token t => t.text
  | .node cs => elemTextList cs

/-- Concatenated text of a list of elements (`map(to_string).collect`). -/
def elemTextList : List Elem → Str
  | [] => []
  | c :: cs => elemText c ++ elemTextList cs

end

/-- `child.kind() == COMMENT || child.kind() == WHITESPACE`.  A node's kind is
never `COMMENT` or `WHITESPACE` (those are token kinds), so only tokens are
trivia. -/
def isTrivia : Elem → Bool
  | .token t => t.kind == .comment || t.kind == .whitespace
  | .node _ => false

/-! ## Line splitting and prefix stripping -/

/-- Rust `str::split('\n')` (always nonempty; `"" ↦ [""]`). -/
def splitNl : Str → List Str
  | [] => [[]]
  | c :: rest =>
    if c = '\n' then [] :: splitNl rest
    else
      match splitNl rest with
      | [] => [[c]]
      | l :: ls => (c :: l) :: ls

/-- `Itertools::join("\n")`. -/
def joinNl : List Str → Str
  | [] => []
  | [l] => l
  | l :: ls => l ++ '\n' :: joinNl ls

/-- Rust `line.strip_prefix(pfx).unwrap_or(line)`. -/
def strip_prefix_or (pfx l : Str) : Str :=
  if pfx.isPrefixOf l then l.drop pfx.length else l

/-- Rust `s.strip_suffix(suf).unwrap_or(s)`. -/
def strip_suffix_or (suf l : Str) : Str :=
  if suf.isSuffixOf l then l.take (l.length - suf.length) else l

/-- Rust `line.strip_prefix(' ').unwrap_or(line)`: drop exactly one leading
space character. -/
def strip_one_space : Str → Str
  | ' ' :: l => l
  | l => l

/-- `write_lines` from lib.rs: strip the shared prefix from every line. -/
def write_lines (text pfx : Str) : Str :=
  joinNl ((splitNl text).map (strip_prefix_or pfx))

/-- The `comment_suffix`/`comment_text` computation of `write_comment` from
lib.rs: the text after the marker, also dropping a trailing `*/` if the
comment is block-shaped. -/
def commentContent (text : Str) : Str :=
  let comment_suffix := text.drop (commentPfxOf text).length
  match (commentKindOf text).shape with
  | .line => comment_suffix
  | .block => strip_suffix_or (str "*/") comment_suffix

/-- `write_comment` from lib.rs: drop the comment marker (and, for block
comments, a trailing `*/` if present), strip one leading space from the first
line, and strip the shared prefix from every later line. -/
def write_comment (text pfx : Str) : Str :=
  match splitNl (commentContent text) with
  | [] => []
  | first_line :: rest =>
    rest.foldl (fun acc line => acc ++ '\n' :: strip_prefix_or pfx line)
      (strip_one_space first_line)

/-! ## The renderer state machine -/

/-- The render-call-scoped mutable state of `write_body`. -/
structure RState where
  output : Str
  in_code_block : Bool
  whitespace : Str
deriving DecidableEq

/-- The opening fence text emitted by `ensure_in_code_block`. -/
def fenceOpen : Str := str "\n\n```rust,ignore\n"

/-- The closing fence text emitted by `ensure_in_markdown`. -/
def fenceCloseBlank : Str := str "\n```\n\n"

/-- `ensure_in_markdown` from lib.rs: the text to emit, and the new flag. -/
def ensure_in_markdown (in_code_block : Bool) (ws : Str) : Str × Bool :=
  (if in_code_block then fenceCloseBlank else ws, false)

/-- `ensure_in_code_block` from lib.rs: the text to emit, and the new flag. -/
def ensure_in_code_block (in_code_block : Bool) (ws : Str) : Str × Bool :=
  (if in_code_block then ws else fenceOpen, true)

/-- `write_token` from lib.rs. -/
def write_token (st : RState) (tok : Token) (pfx : Str) : RState :=
  match tok.kind with
  | .comment =>
    if is_doc tok.text then
      let p := ensure_in_code_block st.in_code_block st.whitespace
      { output := st.output ++ p.1 ++ write_lines tok.text pfx,
        in_code_block := p.2, whitespace := [] }
    else
      let p := ensure_in_markdown st.in_code_block st.whitespace
      { output := st.output ++ p.1 ++ write_comment tok.text pfx,
        in_code_block := p.2, whitespace := [] }
  | .whitespace =>
    { st with whitespace := List.replicate (tok.text.count '\n') '\n' }
  | _ =>
    { output := st.output ++ st.whitespace ++ write_lines tok.text pfx,
      in_code_block := st.in_code_block, whitespace := [] }

/-- The `break` arm of `write_node_or_token`'s node case: enter the code
block, write the first non-trivia child, then write every remaining sibling
verbatim (prefix-stripped), and clear the whitespace buffer. -/
def writeNodeRest (st : RState) (pfx : Str) (c : Elem) (rest : List Elem) : RState :=
  { output := rest.foldl (fun acc r => acc ++ write_lines (elemText r) pfx)
      (st.output ++ (ensure_in_code_block st.in_code_block st.whitespace).1
        ++ write_lines (elemText c) pfx),
    in_code_block := true, whitespace := [] }

/-- The node case of `write_node_or_token`: recurse over leading trivia
children, then treat the first non-trivia child and all its following siblings
as verbatim code.  The source recurses into `write_node_or_token` for trivia
children; a trivia child is necessarily a token (nodes never have kind
`COMMENT`/`WHITESPACE`), so that recursion is exactly `write_token`. -/
def writeNodeChildren (st : RState) (pfx : Str) : List Elem → RState
  | [] => { st with whitespace := [] }
  | .token t :: rest =>
    if t.kind == .comment || t.kind == .whitespace then
      writeNodeChildren (write_token st t pfx) pfx rest
    else
      writeNodeRest st pfx (.token t) rest
  | .node cs :: rest => writeNodeRest st pfx (.node cs) rest

/-- `write_node_or_token` from lib.rs. -/
def write_node_or_token (st : RState) (el : Elem) (pfx : Str) : RState :=
  match el with
  | .node cs => writeNodeChildren st pfx cs
  | .token t => write_token st t pfx

/-- The loop of `write_body`: fold the elements over the initial state. -/
def render_fold (stmts : List Elem) (pfx : Str) : RState :=
  stmts.foldl (fun st el => write_node_or_token st el pfx) ⟨[], false, []⟩

/-- `write_body` from lib.rs: run the walk, close an open fence, and append
the final newline. -/
def write_body (stmts : List Elem) (pfx : Str) : Str :=
  let st := render_fold stmts pfx
  (st.output ++ (if st.in_code_block then str "\n```" else [])) ++ str "\n"

/-! ## Body extraction (`write_function`) -/

/-- Strip one trailing carriage return (the first half of a split CRLF). -/
def stripCr (l : Str) : Str := if l.getLast? = some '\r' then l.dropLast else l

/-- Helper for `rustLines` over the `'\n'`-split segments: every segment except
the last was terminated by a `'\n'`, so a trailing `'\r'` before it is
stripped; a final empty segment (the text ended with `'\n'`) is dropped; a
final nonempty segment had no line ending at all, so it keeps even a lone
trailing `'\r'`. -/
def rustLinesAux : List Str → List Str
  | [] => []
  | [l] => if l = [] then [] else [l]
  | l :: ls => stripCr l :: rustLinesAux ls

/-- Rust `str::lines()`: split at `'\n'` or `"\r\n"` line endings, the final
line ending being optional. -/
def rustLines (s : Str) : List Str := rustLinesAux (splitNl s)

/-- The negation of `non_ws` from `whitespace_prefix` in lib.rs: a space or
tab character. -/
def isWsChar (c : Char) : Bool := c == ' ' || c == '\t'

/-- `whitespace_prefix` from lib.rs (`line.split_once(non_ws)` keeps the part
before the first non-space/tab character): the leading run of spaces/tabs of a
line, or `none` if the line has no other character. -/
def whitespace_prefix_of (line : Str) : Option Str :=
  if line.all isWsChar then none
  else some (line.takeWhile isWsChar)

/-- One step of `longest_prefix` from lib.rs: truncate at the first differing
character, or at the shorter string. -/
def commonPfx : Str → Str → Str
  | x :: xs, y :: ys => if x = y then x :: commonPfx xs ys else []
  | _, _ => []

/-- `longest_prefix` from lib.rs. -/
def longest_prefix_of : List Str → Str
  | [] => []
  | p :: ps => ps.foldl commonPfx p

/-- `NodeOrToken::into_token` / `as_token`. -/
def intoToken : Elem → Option Token
  | .token t => some t
  | .node _ => none

/-- `expect_kind` from lib.rs. -/
def expect_kind (expected : TokKind) (actual : Option Elem) : Except String Unit :=
  let actual_kind := (actual.bind intoToken).map Token.kind
  if some expected = actual_kind then .ok () else .error "Unexpected token"

/-- The successful tail of `write_function`, after both delimiter checks have
passed: drop the delimiters, compute the shared whitespace prefix of the body
text, drop a leading whitespace token, and render. -/
def write_function_body (stmts : List Elem) : Str :=
  let stmts2 := stmts.tail.dropLast
  let body_text := elemTextList stmts2
  let ws_pfxs := (rustLines body_text).filterMap whitespace_prefix_of
  let lp := longest_prefix_of ws_pfxs
  let stmts3 :=
    match stmts2.head? with
    | some (.token t) => if t.kind == .whitespace then stmts2.tail else stmts2
    | _ => stmts2
  write_body stmts3 lp

/-- `write_function` from lib.rs, taking the children of the function's
`stmt_list` (or `none` when the function has no body).  The two `expect_kind`
calls use the `?` operator, so an error from either is returned immediately
(modelled by the explicit `match`es). -/
def write_function : Option (List Elem) → Except String (Option Str)
  | none => .ok none
  | some stmts =>
    match expect_kind .lCurly stmts.head? with
    | .error e => .error e
    | .ok () =>
      match expect_kind .rCurly stmts.tail.getLast? with
      | .error e => .error e
      | .ok () => .ok (some (write_function_body stmts))

/-! ## Module walk (`write_module`) -/

/-- A top-level module item: a function (with its optional name and its
optional `stmt_list` children) or anything else. -/
inductive ModItem where
  | fnItem (name : Option String) (stmtList : Option (List Elem))
  | otherItem

/-- `is_named` from lib.rs. -/
def is_named (name : Option String) (target : String) : Bool :=
  name.any (fun n => n == target)

/-- `write_module` from lib.rs, over an already parsed item list: render the
first function named `body` that has a body, else return `none`. -/
def write_module : List ModItem → Except String (Option Str)
  | [] => .ok none
  | .fnItem name stmtList :: rest =>
    if is_named name "body" then
      match write_function stmtList with
      | .error e => .error e
      | .ok (some content) => .ok (some content)
      | .ok none => write_module rest
    else write_module rest
  | .otherItem :: rest => write_module rest

/-! ## Notions used by the claims -/

/-- Number of (possibly overlapping) occurrences of `pat` in a string. -/
def countOcc (pat : Str) : Str → Nat
  | [] => 0
  | c :: rest => (if pat.isPrefixOf (c :: rest) then 1 else 0) + countOcc pat rest

/-- Three backticks: the substring common to both fence markers. -/
def tickPat : Str := str "```"

/-- The distinctive text of an opening fence marker. -/
def openPat : Str := str "```rust,ignore"

/-- A top-level item that is a function named `body`. -/
def isBodyFn : ModItem → Bool
  | .fnItem name _ => is_named name "body"
  | .otherItem => false

/-- The first raw element is an opening block delimiter token and the last raw
element is a closing block delimiter token. -/
def delim_ok (l : List Elem) : Bool :=
  decide ((l.head?.bind intoToken).map Token.kind = some .lCurly) &&
  decide ((l.getLast?.bind intoToken).map Token.kind = some .rCurly)

/-- A plain (non-doc) comment token or a whitespace token. -/
def plainOrWs : Elem → Bool
  | .token t => (t.kind == .comment && !(is_doc t.text)) || t.kind == .whitespace
  | .node _ => false

/-- A node with at least one non-trivia child (the shape of a statement node
in a parsed body: such an element is what opens a code fence). -/
def hasSubstChild : Elem → Bool
  | .node cs => cs.any (fun c => !(isTrivia c))
  | .token _ => false

mutual

/-- No comment token occurs anywhere in the element. -/
def commentFree : Elem → Bool
  | .token t => !(t.kind == .comment)
  | .node cs => commentFreeList cs

/-- No comment token occurs anywhere in a list of elements. -/
def commentFreeList : List Elem → Bool
  | [] => true
  | c :: cs => commentFree c && commentFreeList cs

end

/-- One round of de-indentation as performed by the program: the shared
whitespace prefix is computed by `longest_prefix` over `whitespace_prefix` of
each line, and stripped from each line as in `write_lines`. -/
def deindent (lines : List Str) : List Str :=
  let p := longest_prefix_of (lines.filterMap whitespace_prefix_of)
  lines.map (strip_prefix_or p)

/-- Modelled from the spec (§4.3, Comment Text Normalizer), for comparison
with `write_comment`: select the content after the marker (dropping a trailing
`*/` for block shapes), split into lines, strip exactly one leading space from
the first line if one is present, and on every later line strip the shared
prefix exactly when the line starts with it. -/
def normalize_comment_spec (text pfx : Str) : Str :=
  match splitNl (commentContent text) with
  | [] => []
  | first_line :: rest =>
    joinNl ((if first_line.head? = some ' ' then first_line.tail else first_line) ::
      rest.map (fun line => if pfx.isPrefixOf line then line.drop pfx.length else line))

/-- The whitespace buffer only ever holds newline characters. -/
def nlOnly (ws : Str) : Bool := ws.all (fun c => c == '\n')

/-- Invariant of the render walk on comment-free, backtick-free input: the
buffer holds only newlines, and the output is backtick-free while in Prose,
or splits as `A ++ fenceOpen ++ M` with `A`, `M` backtick-free while in Code. -/
def GoodSt (st : RState) : Prop :=
  nlOnly st.whitespace = true ∧
  ((st.in_code_block = false ∧ tick ∉ st.output) ∨
   (st.in_code_block = true ∧
     ∃ A M, st.output = A ++ fenceOpen ++ M ∧ tick ∉ A ∧ tick ∉ M))

/-! ## Helper lemmas -/

theorem splitNl_ne_nil (s : Str) : splitNl s ≠ [] := by
  cases s with
  | nil => simp [splitNl]
  | cons a rest =>
    unfold splitNl
    by_cases ha : a = '\n'
    · simp [ha]
    · rw [if_neg ha]
      cases splitNl rest <;> simp

theorem mem_of_mem_splitNl {s l : Str} {c : Char} (hl : l ∈ splitNl s) (hc : c ∈ l) :
    c ∈ s := by
  induction s generalizing l with
  | nil =>
    simp [splitNl] at hl
    subst hl; simp at hc
  | cons a rest ih =>
    by_cases ha : a = '\n'
    · subst ha
      simp [splitNl] at hl
      rcases hl with h | h
      · subst h; simp at hc
      · exact List.mem_cons_of_mem _ (ih h hc)
    · cases hsp : splitNl rest with
      | nil => exact absurd hsp (splitNl_ne_nil rest)
      | cons l0 ls =>
        simp [splitNl, ha, hsp] at hl
        rcases hl with h | h
        · subst h
          rcases List.mem_cons.mp hc with h | h
          · exact h ▸ List.mem_cons_self _ _
          · exact List.mem_cons_of_mem _ (ih (hsp ▸ List.mem_cons_self _ _) h)
        · exact List.mem_cons_of_mem _ (ih (hsp ▸ List.mem_cons_of_mem _ h) hc)

theorem mem_of_mem_joinNl {ls : List Str} {c : Char} (h : c ∈ joinNl ls) :
    (∃ l ∈ ls, c ∈ l) ∨ c = '\n' := by
  induction ls with
  | nil => simp [joinNl] at h
  | cons l rest ih =>
    cases rest with
    | nil => exact .inl ⟨l, List.mem_cons_self _ _, h⟩
    | cons l2 rest2 =>
      rcases List.mem_append.mp h with h | h
      · exact .inl ⟨l, List.mem_cons_self _ _, h⟩
      · rcases List.mem_cons.mp h with h | h
        · exact .inr h
        · rcases ih h with ⟨l', hl', hc'⟩ | h
          · exact .inl ⟨l', List.mem_cons_of_mem _ hl', hc'⟩
          · exact .inr h

theorem mem_of_mem_strip_prefix_or {p l : Str} {c : Char}
    (h : c ∈ strip_prefix_or p l) : c ∈ l := by
  unfold strip_prefix_or at h
  split at h
  · exact List.drop_subset _ _ h
  · exact h

theorem mem_of_mem_strip_suffix_or {suf l : Str} {c : Char}
    (h : c ∈ strip_suffix_or suf l) : c ∈ l := by
  unfold strip_suffix_or at h
  split at h
  · exact List.take_subset _ _ h
  · exact h

theorem mem_of_mem_strip_one_space {l : Str} {c : Char}
    (h : c ∈ strip_one_space l) : c ∈ l := by
  unfold strip_one_space at h
  split at h
  · exact List.mem_cons_of_mem _ h
  · exact h

theorem mem_of_mem_write_lines {t p : Str} {c : Char} (h : c ∈ write_lines t p) :
    c ∈ t ∨ c = '\n' := by
  unfold write_lines at h
  rcases mem_of_mem_joinNl h with ⟨l, hl, hc⟩ | h
  · rcases List.mem_map.mp hl with ⟨l0, hl0, rfl⟩
    exact .inl (mem_of_mem_splitNl hl0 (mem_of_mem_strip_prefix_or hc))
  · exact .inr h

theorem mem_of_mem_comment_fold {rest : List Str} {pfx init : Str} {c : Char}
    (h : c ∈ rest.foldl (fun acc line => acc ++ '\n' :: strip_prefix_or pfx line) init) :
    c ∈ init ∨ c = '\n' ∨ ∃ l ∈ rest, c ∈ l := by
  induction rest generalizing init with
  | nil => exact .inl h
  | cons r rs ih =>
    rcases ih h with h' | h' | ⟨l, hl, hc⟩
    · rcases List.mem_append.mp h' with h'' | h''
      · exact .inl h''
      · rcases List.mem_cons.mp h'' with h'' | h''
        · exact .inr (.inl h'')
        · exact .inr (.inr ⟨r, List.mem_cons_self _ _, mem_of_mem_strip_prefix_or h''⟩)
    · exact .inr (.inl h')
    · exact .inr (.inr ⟨l, List.mem_cons_of_mem _ hl, hc⟩)

theorem mem_of_mem_commentContent {t : Str} {c : Char} (h : c ∈ commentContent t) :
    c ∈ t := by
  unfold commentContent at h
  split at h
  · exact List.drop_subset _ _ h
  · exact List.drop_subset _ _ (mem_of_mem_strip_suffix_or h)

theorem mem_of_mem_write_comment {t p : Str} {c : Char} (h : c ∈ write_comment t p) :
    c ∈ t ∨ c = '\n' := by
  unfold write_comment at h
  cases hsp : splitNl (commentContent t) with
  | nil => rw [hsp] at h; simp at h
  | cons first_line rest =>
    rw [hsp] at h
    rcases mem_of_mem_comment_fold h with h' | h' | ⟨l, hl, hc⟩
    · exact .inl (mem_of_mem_commentContent
        (mem_of_mem_splitNl (hsp ▸ List.mem_cons_self _ _) (mem_of_mem_strip_one_space h')))
    · exact .inr h'
    · exact .inl (mem_of_mem_commentContent
        (mem_of_mem_splitNl (hsp ▸ List.mem_cons_of_mem _ hl) hc))

/-! ## Claim C6 -/

/-- Claim C6: rendering an empty element sequence (an empty function body,
e.g. `fn body() {}`) produces exactly the one-character string `"\n"` and
nothing else — both at the `write_body` level (for any indentation prefix) and
through the whole `write_module` pipeline on `fn body() {}`. -/
theorem claim_c6_empty_body (pfx : Str) :
    write_body [] pfx = ['\n'] ∧
    write_module [.fnItem (some "body")
        (some [.token ⟨.lCurly, str "\x7b"⟩, .token ⟨.rCurly, str "\x7d"⟩])] =
      .ok (some ['\n']) :=
  ⟨rfl, rfl⟩

/-! ## Claim C7 -/

/-- Claim C7: when the parsed module has no top-level function named exactly
`body` (including when only differently-named functions exist), `write_module`
returns `none`, leaving the content unreplaced. -/
theorem claim_c7_no_body_fn (items : List ModItem)
    (h : ∀ i ∈ items, isBodyFn i = false) :
    write_module items = .ok none := by
  induction items with
  | nil => rfl
  | cons i rest ih =>
    have hrest := ih (fun j hj => h j (List.mem_cons_of_mem _ hj))
    cases i with
    | otherItem => exact hrest
    | fnItem name stmtList =>
      have hi := h _ (List.mem_cons_self _ _)
      simp only [isBodyFn] at hi
      simp only [write_module, hi, if_false, Bool.false_eq_true]
      exact hrest

/-- Witness for C7: a module whose only items are a function named `main` and
a non-function item is left unreplaced. -/
theorem claim_c7_no_body_fn_witness :
    write_module [.fnItem (some "main")
        (some [.token ⟨.lCurly, str "\x7b"⟩, .token ⟨.rCurly, str "\x7d"⟩]),
      .otherItem] = .ok none :=
  claim_c7_no_body_fn _ (by decide)

/-! ## Claim C8 -/

theorem write_function_some_eq (l : List Elem) :
    write_function (some l) =
      match expect_kind TokKind.lCurly l.head? with
      | Except.error e => Except.error e
      | Except.ok () =>
        match expect_kind TokKind.rCurly l.tail.getLast? with
        | Except.error e => Except.error e
        | Except.ok () => Except.ok (some (write_function_body l)) := rfl

theorem expect_kind_eq_ok {k : TokKind} {o : Option Elem}
    (h : some k = (o.bind intoToken).map Token.kind) : expect_kind k o = .ok () := by
  unfold expect_kind
  rw [if_pos h]

theorem expect_kind_eq_err {k : TokKind} {o : Option Elem}
    (h : ¬ some k = (o.bind intoToken).map Token.kind) :
    expect_kind k o = .error "Unexpected token" := by
  unfold expect_kind
  rw [if_neg h]

/-- Claim C8: body extraction returns the structural error exactly when the
first raw element is not an opening block-delimiter token or the last raw
element is not a closing block-delimiter token (including when an element in
delimiter position is a node, or the list is too short); and whenever the
delimiters are in place, the render path succeeds, producing a rendering —
extraction is the only error source and the walk itself is total. -/
theorem claim_c8_delimiters (l : List Elem) :
    ((∃ e, write_function (some l) = .error e) ↔ delim_ok l = false) ∧
    (delim_ok l = true → ∃ s, write_function (some l) = .ok (some s)) := by
  by_cases h1 : some TokKind.lCurly = (l.head?.bind intoToken).map Token.kind
  · by_cases h2 : some TokKind.rCurly = (l.tail.getLast?.bind intoToken).map Token.kind
    · have hok : write_function (some l) = .ok (some (write_function_body l)) := by
        rw [write_function_some_eq, expect_kind_eq_ok h1, expect_kind_eq_ok h2]
      have hlast : (l.getLast?.bind intoToken).map Token.kind = some TokKind.rCurly := by
        cases l with
        | nil => simp at h1
        | cons a t =>
          cases t with
          | nil => simp at h2
          | cons b r => rw [List.getLast?_cons_cons]; exact h2.symm
      have hfirst : (l.head?.bind intoToken).map Token.kind = some TokKind.lCurly := h1.symm
      have hd : delim_ok l = true := by
        unfold delim_ok
        rw [hfirst, hlast]
        simp
      exact ⟨⟨fun ⟨e, he⟩ => absurd (hok.symm.trans he) (by simp),
          fun hfalse => absurd (hd.symm.trans hfalse) (by decide)⟩,
        fun _ => ⟨_, hok⟩⟩
    · have herr : write_function (some l) = .error "Unexpected token" := by
        rw [write_function_some_eq, expect_kind_eq_ok h1, expect_kind_eq_err h2]
      have hd : delim_ok l = false := by
        cases l with
        | nil => simp at h1
        | cons a t =>
          cases t with
          | nil =>
            have hkind : (intoToken a).map Token.kind = some TokKind.lCurly := by
              simpa using h1.symm
            have h2' : ¬ (([a].getLast?.bind intoToken).map Token.kind
                = some TokKind.rCurly) := by
              simp only [List.getLast?_singleton, Option.some_bind]
              rw [hkind]
              simp
            unfold delim_ok
            rw [decide_eq_false h2']
            simp
          | cons b r =>
            have h2' : ¬ (((a :: b :: r).getLast?.bind intoToken).map Token.kind
                = some TokKind.rCurly) := by
              rw [List.getLast?_cons_cons]
              exact fun hc => h2 hc.symm
            unfold delim_ok
            rw [decide_eq_false h2']
            simp
      exact ⟨⟨fun _ => hd, fun _ => ⟨_, herr⟩⟩,
        fun htrue => absurd (hd.symm.trans htrue) (by decide)⟩
  · have herr : write_function (some l) = .error "Unexpected token" := by
      rw [write_function_some_eq, expect_kind_eq_err h1]
    have hd : delim_ok l = false := by
      have h1' : ¬ ((l.head?.bind intoToken).map Token.kind = some TokKind.lCurly) :=
        fun hc => h1 hc.symm
      unfold delim_ok
      rw [decide_eq_false h1']
      simp
    exact ⟨⟨fun _ => hd, fun _ => ⟨_, herr⟩⟩,
      fun htrue => absurd (hd.symm.trans htrue) (by decide)⟩

/-- Witness for C8: with delimiters in place extraction succeeds and renders;
with the opening delimiter missing it fails. -/
theorem claim_c8_delimiters_witness :
    (∃ s, write_function
        (some [.token ⟨.lCurly, str "\x7b"⟩, .token ⟨.rCurly, str "\x7d"⟩]) = .ok (some s)) ∧
    ((∃ e, write_function (some ([] : List Elem)) = .error e) ↔
      delim_ok ([] : List Elem) = false) :=
  ⟨(claim_c8_delimiters _).2 (by decide), (claim_c8_delimiters []).1⟩

/-! ## Claim C5 (corrected) -/

/-- Counterexample to C5 as stated: for the body consisting of the single
block comment `/* x\n*/` (whose content ends with a line break before the
closing marker) the rendered output is `"x\n\n"`: it ends with TWO newline
characters, so the output does not always terminate with exactly one trailing
newline. -/
theorem claim_c5_cex :
    write_body [.token ⟨.comment, str "/* x\n*/"⟩] [] = str "x\n\n" ∧
    (write_body [.token ⟨.comment, str "/* x\n*/"⟩] []).getLast? = some '\n' ∧
    ((write_body [.token ⟨.comment, str "/* x\n*/"⟩] []).dropLast).getLast? = some '\n' := by
  decide

/-- Claim C5 (amended): after the last element is processed the renderer
emits the closing fence marker `"\n```"` (one newline before the fence, not a
blank line) exactly when the state is Code, and finalization appends exactly
one further newline character — so the output always ends with a newline,
though it may end with more than one when the last emitted prose content
itself ends with a newline. -/
theorem claim_c5_finalization (es : List Elem) (pfx : Str) :
    ((render_fold es pfx).in_code_block = true →
      write_body es pfx = (render_fold es pfx).output ++ str "\n```" ++ str "\n") ∧
    ((render_fold es pfx).in_code_block = false →
      write_body es pfx = (render_fold es pfx).output ++ str "\n") ∧
    (write_body es pfx).getLast? = some '\n' := by
  have hwb : write_body es pfx =
      ((render_fold es pfx).output ++
        (if (render_fold es pfx).in_code_block then str "\n```" else [])) ++ str "\n" := rfl
  refine ⟨fun h => ?_, fun h => ?_, ?_⟩
  · rw [hwb, h]
    simp
  · rw [hwb, h]
    simp
  · rw [hwb]
    exact List.getLast?_concat _

/-- Witness for the amended C5: instantiated on an all-code body (fence
closed at the end) and on the empty body (no fence closed). -/
theorem claim_c5_finalization_witness :
    write_body [Elem.node [.token ⟨.other, str "x"⟩]] [] =
      (render_fold [Elem.node [.token ⟨.other, str "x"⟩]] []).output
        ++ str "\n```" ++ str "\n" ∧
    write_body ([] : List Elem) [] = (render_fold ([] : List Elem) []).output ++ str "\n" :=
  ⟨(claim_c5_finalization [Elem.node [.token ⟨.other, str "x"⟩]] []).1 rfl,
   (claim_c5_finalization [] []).2.1 rfl⟩

/-! ## Claim C4 (corrected) -/

/-- Counterexample to C4 as stated: rendering the substantive token `x` from
the initial Prose state emits no opening fence marker at all and leaves the
state Prose — the entering-Code transition is NOT applied by the substantive
token branch of `write_token`. -/
theorem claim_c4_cex :
    write_body [.token ⟨.other, str "x"⟩] [] = str "x\n" ∧
    (render_fold [.token ⟨.other, str "x"⟩] []).in_code_block = false ∧
    countOcc tickPat (write_body [.token ⟨.other, str "x"⟩] []) = 0 := by
  decide

/-- Claim C4 (amended): a substantive token (neither comment nor whitespace)
is rendered with no state transition at all: the buffered pending-whitespace
is emitted, followed by the token's prefix-stripped text, the buffer is
cleared, and the state flag is unchanged; no fence marker is emitted (the
output stays backtick-free when state, buffer and token text are). -/
theorem claim_c4_substantive (st : RState) (tok : Token) (pfx : Str)
    (h1 : tok.kind ≠ .comment) (h2 : tok.kind ≠ .whitespace) :
    write_token st tok pfx =
      { output := st.output ++ st.whitespace ++ write_lines tok.text pfx,
        in_code_block := st.in_code_block, whitespace := [] } ∧
    (tick ∉ st.output → tick ∉ st.whitespace → tick ∉ tok.text →
      tick ∉ (write_token st tok pfx).output) := by
  obtain ⟨k, tx⟩ := tok
  have heq : write_token st ⟨k, tx⟩ pfx =
      { output := st.output ++ st.whitespace ++ write_lines tx pfx,
        in_code_block := st.in_code_block, whitespace := [] } := by
    cases k with
    | comment => exact absurd rfl h1
    | whitespace => exact absurd rfl h2
    | lCurly => rfl
    | rCurly => rfl
    | other => rfl
  refine ⟨heq, fun ho hw ht hmem => ?_⟩
  rw [heq] at hmem
  rcases List.mem_append.mp hmem with hm | hm
  · rcases List.mem_append.mp hm with hm' | hm'
    · exact ho hm'
    · exact hw hm'
  · rcases mem_of_mem_write_lines hm with hm' | hm'
    · exact ht hm'
    · exact absurd hm' (by decide)

/-- Witness for the amended C4: a concrete substantive token rendered from
the initial state. -/
theorem claim_c4_substantive_witness :
    write_token ⟨[], false, []⟩ ⟨.other, str "let x = 1;"⟩ [] =
      { output := ([] : Str) ++ ([] : Str) ++ write_lines (str "let x = 1;") [],
        in_code_block := false, whitespace := [] } ∧
    tick ∉ (write_token ⟨[], false, []⟩ ⟨.other, str "let x = 1;"⟩ []).output :=
  ⟨(claim_c4_substantive ⟨[], false, []⟩ ⟨.other, str "let x = 1;"⟩ []
      (by decide) (by decide)).1,
   (claim_c4_substantive ⟨[], false, []⟩ ⟨.other, str "let x = 1;"⟩ []
      (by decide) (by decide)).2 (by decide) (by decide) (by decide)⟩

/-! ## Claim C10 -/

theorem writeNodeChildren_whitespace (pfx : Str) (cs : List Elem) :
    ∀ st : RState, (writeNodeChildren st pfx cs).whitespace = [] := by
  induction cs with
  | nil => intro st; rfl
  | cons c rest ih =>
    intro st
    cases c with
    | node cs' => rfl
    | token t =>
      unfold writeNodeChildren
      by_cases h : (t.kind == TokKind.comment || t.kind == TokKind.whitespace) = true
      · rw [if_pos h]
        exact ih _
      · rw [if_neg h]
        rfl

/-- Claim C10: on a state transition (Prose to Code or Code to Prose) the
pending-whitespace buffer is discarded and the fixed transition text is
written in its place (so the emitted text does not depend on the buffer); the
buffer is emitted verbatim only when the element is rendered without a state
change; and the buffer is cleared after every content-emitting element
(non-whitespace tokens, and nodes). -/
theorem claim_c10_buffer (ws : Str) (st : RState) (tok : Token)
    (cs : List Elem) (pfx : Str) :
    ensure_in_code_block false ws = (fenceOpen, true) ∧
    ensure_in_markdown true ws = (fenceCloseBlank, false) ∧
    ensure_in_code_block true ws = (ws, true) ∧
    ensure_in_markdown false ws = (ws, false) ∧
    (tok.kind ≠ .whitespace → (write_token st tok pfx).whitespace = []) ∧
    (write_node_or_token st (.node cs) pfx).whitespace = [] := by
  refine ⟨rfl, rfl, rfl, rfl, fun hkw => ?_, writeNodeChildren_whitespace pfx cs st⟩
  obtain ⟨k, tx⟩ := tok
  cases k with
  | comment =>
    by_cases hd : is_doc tx = true
    · simp [write_token, hd]
    · simp [write_token, hd]
  | whitespace => exact absurd rfl hkw
  | lCurly => rfl
  | rCurly => rfl
  | other => rfl

/-- Witness for C10: instantiated on a substantive token and a node, with a
nonempty pending buffer. -/
theorem claim_c10_buffer_witness :
    (write_token ⟨[], false, str "\n\n"⟩ ⟨.other, str "x"⟩ []).whitespace = [] ∧
    (write_node_or_token ⟨[], false, str "\n\n"⟩ (.node []) []).whitespace = [] :=
  ⟨(claim_c10_buffer [] ⟨[], false, str "\n\n"⟩ ⟨.other, str "x"⟩ [] []).2.2.2.2.1
      (by decide),
   (claim_c10_buffer [] ⟨[], false, str "\n\n"⟩ ⟨.other, str "x"⟩ [] []).2.2.2.2.2⟩

/-! ## Claim C3 -/

theorem foldl_nl_append_left (g : Str → Str) (as : List Str) :
    ∀ p q : Str,
      as.foldl (fun acc l => acc ++ '\n' :: g l) (p ++ q) =
        p ++ as.foldl (fun acc l => acc ++ '\n' :: g l) q := by
  induction as with
  | nil => intro p q; rfl
  | cons a as ih =>
    intro p q
    rw [List.foldl_cons, List.foldl_cons, List.append_assoc]
    exact ih p (q ++ '\n' :: g a)

theorem joinNl_eq_foldl (g : Str → Str) (ls : List Str) :
    ∀ x : Str,
      joinNl (x :: ls.map g) = ls.foldl (fun acc l => acc ++ '\n' :: g l) x := by
  induction ls with
  | nil => intro x; rfl
  | cons a as ih =>
    intro x
    show x ++ '\n' :: joinNl (g a :: as.map g) = _
    rw [ih (g a), List.foldl_cons]
    have h1 := foldl_nl_append_left g as x ('\n' :: g a)
    have h2 : as.foldl (fun acc l => acc ++ '\n' :: g l) ('\n' :: g a) =
        '\n' :: as.foldl (fun acc l => acc ++ '\n' :: g l) (g a) :=
      foldl_nl_append_left g as ['\n'] (g a)
    rw [h1, h2]

theorem strip_one_space_eq_if (f : Str) :
    strip_one_space f = if f.head? = some ' ' then f.tail else f := by
  unfold strip_one_space
  split
  · next l => simp
  · next hne =>
    cases f with
    | nil => simp
    | cons c f' =>
      have hc : c ≠ ' ' := fun h => hne f' (by rw [h])
      simp [hc]

/-- Claim C3: the Comment Text Normalizer removes the introducing marker (and,
for a block-shaped comment, a trailing closing marker if present), splits the
remaining content into lines, strips exactly one leading space character from
the first line if one is present (never tabs, never more than one space), and
on every subsequent line strips the shared prefix exactly when the line starts
with it, leaving any other line unchanged: `write_comment` equals the
normalizer modelled from the spec's words, one space only ever comes off the
first line, tabs are untouched, and later lines are stripped precisely when
prefixed. -/
theorem claim_c3_normalizer (text pfx : Str) :
    write_comment text pfx = normalize_comment_spec text pfx ∧
    (∀ l : Str, strip_one_space (' ' :: ' ' :: l) = ' ' :: l) ∧
    (∀ l : Str, strip_one_space ('\t' :: l) = '\t' :: l) ∧
    (∀ l : Str, pfx.isPrefixOf l → strip_prefix_or pfx l = l.drop pfx.length) ∧
    (∀ l : Str, ¬ pfx.isPrefixOf l → strip_prefix_or pfx l = l) := by
  refine ⟨?_, fun l => rfl, fun l => rfl, fun l h => ?_, fun l h => ?_⟩
  · unfold write_comment normalize_comment_spec
    cases hsp : splitNl (commentContent text) with
    | nil => rfl
    | cons first_line rest =>
      show rest.foldl (fun acc line => acc ++ '\n' :: strip_prefix_or pfx line)
          (strip_one_space first_line) =
        joinNl ((if first_line.head? = some ' ' then first_line.tail else first_line) ::
          rest.map (fun line => if pfx.isPrefixOf line then line.drop pfx.length else line))
      rw [← joinNl_eq_foldl (strip_prefix_or pfx) rest (strip_one_space first_line),
        strip_one_space_eq_if]
      rfl
  · unfold strip_prefix_or
    rw [if_pos h]
  · unfold strip_prefix_or
    rw [if_neg h]

/-- Witness for C3: instantiated on the comment `// x` with shared prefix two
spaces, and on concrete first lines and subsequent lines. -/
theorem claim_c3_normalizer_witness :
    write_comment (str "// x") (str "  ") = normalize_comment_spec (str "// x") (str "  ") ∧
    strip_one_space (' ' :: ' ' :: str "a") = ' ' :: str "a" ∧
    strip_one_space ('\t' :: str "a") = '\t' :: str "a" ∧
    strip_prefix_or (str "  ") (str "  ab") = (str "  ab").drop (str "  ").length ∧
    strip_prefix_or (str "  ") (str " x") = str " x" :=
  ⟨(claim_c3_normalizer (str "// x") (str "  ")).1,
   (claim_c3_normalizer (str "// x") (str "  ")).2.1 (str "a"),
   (claim_c3_normalizer (str "// x") (str "  ")).2.2.1 (str "a"),
   (claim_c3_normalizer (str "// x") (str "  ")).2.2.2.1 (str "  ab") (by decide),
   (claim_c3_normalizer (str "// x") (str "  ")).2.2.2.2 (str " x") (by decide)⟩

/-! ## Claim C2 -/

theorem foldl_write_lines_eq (pfx : Str) (rest : List Elem) :
    ∀ init : Str,
      rest.foldl (fun acc r => acc ++ write_lines (elemText r) pfx) init =
        init ++ (rest.map (fun r => write_lines (elemText r) pfx)).flatten := by
  induction rest with
  | nil => intro init; simp
  | cons r rs ih =>
    intro init
    rw [List.foldl_cons, ih, List.map_cons, List.flatten_cons, List.append_assoc]

theorem writeNodeRest_eq (st : RState) (pfx : Str) (c : Elem) (rest : List Elem) :
    writeNodeRest st pfx c rest =
      { output := st.output ++ (ensure_in_code_block st.in_code_block st.whitespace).1
          ++ write_lines (elemText c) pfx
          ++ (rest.map (fun r => write_lines (elemText r) pfx)).flatten,
        in_code_block := true, whitespace := [] } := by
  unfold writeNodeRest
  rw [foldl_write_lines_eq]

theorem node_walk_general (pfx : Str) (lead : List Elem) :
    ∀ (st : RState) (c : Elem) (rest : List Elem),
      (∀ x ∈ lead, isTrivia x = true) → isTrivia c = false →
      write_node_or_token st (.node (lead ++ c :: rest)) pfx =
        { output := (lead.foldl (fun s x => write_node_or_token s x pfx) st).output
            ++ (ensure_in_code_block
                  (lead.foldl (fun s x => write_node_or_token s x pfx) st).in_code_block
                  (lead.foldl (fun s x => write_node_or_token s x pfx) st).whitespace).1
            ++ write_lines (elemText c) pfx
            ++ (rest.map (fun r => write_lines (elemText r) pfx)).flatten,
          in_code_block := true, whitespace := [] } := by
  induction lead with
  | nil =>
    intro st c rest _ hc
    show writeNodeChildren st pfx (c :: rest) = _
    cases c with
    | node cs => exact writeNodeRest_eq st pfx (.node cs) rest
    | token t =>
      have hcond : (t.kind == TokKind.comment || t.kind == TokKind.whitespace) = false := hc
      unfold writeNodeChildren
      rw [if_neg (by simp [hcond])]
      exact writeNodeRest_eq st pfx (.token t) rest
  | cons x lead' ih =>
    intro st c rest hlead hc
    have hx := hlead x (List.mem_cons_self _ _)
    cases x with
    | node cs => simp [isTrivia] at hx
    | token t =>
      show writeNodeChildren st pfx (.token t :: (lead' ++ c :: rest)) = _
      unfold writeNodeChildren
      have hx' : (t.kind == TokKind.comment || t.kind == TokKind.whitespace) = true := hx
      rw [if_pos hx']
      have hrec := ih (write_token st t pfx) c rest
        (fun y hy => hlead y (List.mem_cons_of_mem _ hy)) hc
      show write_node_or_token (write_token st t pfx) (.node (lead' ++ c :: rest)) pfx = _
      rw [hrec]
      rfl

theorem node_walk_all_trivia (pfx : Str) (lead : List Elem) :
    ∀ st : RState, (∀ x ∈ lead, isTrivia x = true) →
      write_node_or_token st (.node lead) pfx =
        { output := (lead.foldl (fun s x => write_node_or_token s x pfx) st).output,
          in_code_block :=
            (lead.foldl (fun s x => write_node_or_token s x pfx) st).in_code_block,
          whitespace := [] } := by
  induction lead with
  | nil => intro st _; rfl
  | cons x lead' ih =>
    intro st hlead
    have hx := hlead x (List.mem_cons_self _ _)
    cases x with
    | node cs => simp [isTrivia] at hx
    | token t =>
      have hx' : (t.kind == TokKind.comment || t.kind == TokKind.whitespace) = true := hx
      show writeNodeChildren st pfx (.token t :: lead') = _
      rw [show writeNodeChildren st pfx (.token t :: lead') =
        (if (t.kind == TokKind.comment || t.kind == TokKind.whitespace) = true then
          writeNodeChildren (write_token st t pfx) pfx lead'
        else writeNodeRest st pfx (.token t) lead') from rfl]
      rw [if_pos hx']
      have hrec := ih (write_token st t pfx) (fun y hy => hlead y (List.mem_cons_of_mem _ hy))
      show write_node_or_token (write_token st t pfx) (.node lead') pfx = _
      rw [hrec]
      rfl

/-- Claim C2: when rendering a node, only its leading Comment/Whitespace
token children are classified as prose or code (by the ordinary per-token
dispatch) — a node all of whose children are trivia is rendered entirely by
that dispatch, followed only by clearing the buffer; at the first non-trivia
child the entering-Code transition is applied exactly once and that child
plus every remaining sibling is emitted verbatim (prefix-stripped), with no
further reclassification — so comments nested deeper are never rendered as
prose.  In particular a doc comment leading child is rendered inside the same
fence as the following code, while a plain comment in the same position
becomes prose emitted before the fence opens. -/
theorem claim_c2_node_classification (st : RState) (pfx : Str) (lead : List Elem)
    (c : Elem) (rest : List Elem) (hlead : ∀ x ∈ lead, isTrivia x = true)
    (hc : isTrivia c = false) :
    write_node_or_token st (.node (lead ++ c :: rest)) pfx =
      { output := (lead.foldl (fun s x => write_node_or_token s x pfx) st).output
          ++ (ensure_in_code_block
                (lead.foldl (fun s x => write_node_or_token s x pfx) st).in_code_block
                (lead.foldl (fun s x => write_node_or_token s x pfx) st).whitespace).1
          ++ write_lines (elemText c) pfx
          ++ (rest.map (fun r => write_lines (elemText r) pfx)).flatten,
        in_code_block := true, whitespace := [] } ∧
    (∀ lead2 : List Elem, (∀ x ∈ lead2, isTrivia x = true) →
      write_node_or_token st (.node lead2) pfx =
        { output := (lead2.foldl (fun s x => write_node_or_token s x pfx) st).output,
          in_code_block :=
            (lead2.foldl (fun s x => write_node_or_token s x pfx) st).in_code_block,
          whitespace := [] }) ∧
    write_node_or_token ⟨[], false, []⟩
        (.node [.token ⟨.comment, str "/// D"⟩, .token ⟨.whitespace, str "\n"⟩,
          .token ⟨.other, str "fn f() {}"⟩]) [] =
      ⟨str "\n\n```rust,ignore\n/// D\nfn f() {}", true, []⟩ ∧
    write_node_or_token ⟨[], false, []⟩
        (.node [.token ⟨.comment, str "// P"⟩, .token ⟨.whitespace, str "\n"⟩,
          .token ⟨.other, str "fn f() {}"⟩]) [] =
      ⟨str "P\n\n```rust,ignore\nfn f() {}", true, []⟩ :=
  ⟨node_walk_general pfx lead st c rest hlead hc,
   fun lead2 hlead2 => node_walk_all_trivia pfx lead2 st hlead2,
   by decide, by decide⟩

/-- Witness for C2: a node whose children are a leading whitespace token
followed by a substantive token (the fence opens exactly once and the pending
blank line is discarded by the transition), and a node whose children are all
trivia (a plain comment and whitespace: rendered by per-token dispatch alone,
no fence, buffer cleared). -/
theorem claim_c2_node_classification_witness :
    write_node_or_token ⟨[], false, []⟩
      (.node [.token ⟨.whitespace, str "\n"⟩, .token ⟨.other, str "x"⟩]) [] =
      ⟨str "\n\n```rust,ignore\nx", true, []⟩ ∧
    write_node_or_token ⟨[], false, []⟩
      (.node [.token ⟨.comment, str "// P"⟩, .token ⟨.whitespace, str "\n\n"⟩]) [] =
      ⟨str "P", false, []⟩ := by
  constructor
  · have h := (claim_c2_node_classification ⟨[], false, []⟩ []
      [.token ⟨.whitespace, str "\n"⟩] (.token ⟨.other, str "x"⟩) []
      (by decide) (by decide)).1
    simp only [List.singleton_append] at h
    rw [h]
    decide
  · have h := (claim_c2_node_classification ⟨[], false, []⟩ []
      [.token ⟨.whitespace, str "\n"⟩] (.token ⟨.other, str "x"⟩) []
      (by decide) (by decide)).2.1
      [.token ⟨.comment, str "// P"⟩, .token ⟨.whitespace, str "\n\n"⟩] (by decide)
    rw [h]
    decide

/-! ## Claim C9 -/

theorem commonPfx_prefix_left : ∀ a b : Str, commonPfx a b <+: a := by
  intro a
  induction a with
  | nil => intro b; cases b <;> exact List.nil_prefix
  | cons x xs ih =>
    intro b
    cases b with
    | nil => exact List.nil_prefix
    | cons y ys =>
      unfold commonPfx
      by_cases h : x = y
      · rw [if_pos h]
        exact (List.cons_prefix_cons).mpr ⟨rfl, ih ys⟩
      · rw [if_neg h]
        exact List.nil_prefix

theorem commonPfx_prefix_right : ∀ a b : Str, commonPfx a b <+: b := by
  intro a
  induction a with
  | nil => intro b; cases b <;> exact List.nil_prefix
  | cons x xs ih =>
    intro b
    cases b with
    | nil => exact List.nil_prefix
    | cons y ys =>
      unfold commonPfx
      by_cases h : x = y
      · rw [if_pos h]
        exact (List.cons_prefix_cons).mpr ⟨h, ih ys⟩
      · rw [if_neg h]
        exact List.nil_prefix

theorem foldl_commonPfx_pref : ∀ (ps : List Str) (acc : Str),
    (∀ a ∈ ps, ps.foldl commonPfx acc <+: a) ∧ ps.foldl commonPfx acc <+: acc := by
  intro ps
  induction ps with
  | nil => intro acc; exact ⟨by simp, List.prefix_refl _⟩
  | cons q ps ih =>
    intro acc
    have h := ih (commonPfx acc q)
    refine ⟨fun a ha => ?_, ?_⟩
    · rcases List.mem_cons.mp ha with rfl | ha
      · exact h.2.trans (commonPfx_prefix_right acc a)
      · exact h.1 a ha
    · exact h.2.trans (commonPfx_prefix_left acc q)

theorem longest_prefix_of_pref {ps : List Str} {a : Str} (ha : a ∈ ps) :
    longest_prefix_of ps <+: a := by
  cases ps with
  | nil => simp at ha
  | cons p0 ps' =>
    show ps'.foldl commonPfx p0 <+: a
    rcases List.mem_cons.mp ha with rfl | ha
    · exact (foldl_commonPfx_pref ps' a).2
    · exact (foldl_commonPfx_pref ps' p0).1 a ha

theorem commonPfx_append (p : Str) : ∀ x y : Str,
    commonPfx (p ++ x) (p ++ y) = p ++ commonPfx x y := by
  induction p with
  | nil => intro x y; rfl
  | cons c p ih =>
    intro x y
    show commonPfx (c :: (p ++ x)) (c :: (p ++ y)) = c :: (p ++ commonPfx x y)
    rw [show commonPfx (c :: (p ++ x)) (c :: (p ++ y)) =
      if c = c then c :: commonPfx (p ++ x) (p ++ y) else [] from rfl]
    rw [if_pos rfl, ih]

theorem foldl_commonPfx_factor (p : Str) : ∀ (rs : List Str) (r0 : Str),
    (rs.map (fun r => p ++ r)).foldl commonPfx (p ++ r0) = p ++ rs.foldl commonPfx r0 := by
  intro rs
  induction rs with
  | nil => intro r0; rfl
  | cons r rs ih =>
    intro r0
    simp only [List.map_cons, List.foldl_cons]
    rw [commonPfx_append, ih]

theorem longest_prefix_of_residual (ps : List Str) :
    longest_prefix_of (ps.map (fun a => a.drop (longest_prefix_of ps).length)) = [] := by
  cases ps with
  | nil => rfl
  | cons p0 ps' =>
    generalize hL : longest_prefix_of (p0 :: ps') = L
    have hpref : ∀ a ∈ p0 :: ps', L <+: a := fun a ha => hL ▸ longest_prefix_of_pref ha
    have hfact : ∀ a ∈ p0 :: ps', L ++ a.drop L.length = a := by
      intro a ha
      rcases hpref a ha with ⟨t, ht⟩
      rw [← ht, List.drop_left]
    have key : L ++ longest_prefix_of
        (p0.drop L.length :: ps'.map (fun a => a.drop L.length)) = L := by
      have hmap : ps' = (ps'.map (fun a => a.drop L.length)).map (fun x => L ++ x) := by
        rw [List.map_map]
        exact (List.map_congr_left (fun a ha =>
          hfact a (List.mem_cons_of_mem _ ha))).symm ▸ (List.map_id ps').symm ▸ rfl
      have : longest_prefix_of (p0 :: ps') =
          L ++ longest_prefix_of
            (p0.drop L.length :: ps'.map (fun a => a.drop L.length)) := by
        conv_lhs => rw [show p0 = L ++ p0.drop L.length from
          (hfact p0 (List.mem_cons_self _ _)).symm, hmap]
        exact foldl_commonPfx_factor L (ps'.map (fun a => a.drop L.length)) (p0.drop L.length)
      rw [← this, hL]
    have hlen := congrArg List.length key
    rw [List.length_append] at hlen
    have h0 : (longest_prefix_of
        (p0.drop L.length :: ps'.map (fun a => a.drop L.length))).length = 0 := by omega
    rw [List.map_cons]
    exact List.length_eq_zero.mp h0

theorem all_of_subset {f : Char → Bool} {x y : Str}
    (hx : x.all f = true) (hsub : ∀ c ∈ y, c ∈ x) : y.all f = true := by
  rw [List.all_eq_true] at hx ⊢
  exact fun c hc => hx c (hsub c hc)

theorem takeWhile_append_all {f : Char → Bool} : ∀ {a : Str} (b : Str),
    a.all f = true → (a ++ b).takeWhile f = a ++ b.takeWhile f := by
  intro a
  induction a with
  | nil => intro b _; rfl
  | cons c a ih =>
    intro b hall
    rw [List.all_cons, Bool.and_eq_true] at hall
    show List.takeWhile f (c :: (a ++ b)) = c :: (a ++ b.takeWhile f)
    rw [List.takeWhile_cons, hall.1, if_pos rfl, ih b hall.2]

theorem takeWhile_dropWhile_nil {f : Char → Bool} : ∀ l : Str,
    (l.dropWhile f).takeWhile f = [] := by
  intro l
  induction l with
  | nil => rfl
  | cons c l ih =>
    rw [List.dropWhile_cons]
    by_cases h : f c = true
    · rw [if_pos h]
      exact ih
    · rw [if_neg h]
      rw [List.takeWhile_cons, (Bool.not_eq_true _).mp h]
      rfl

theorem whitespace_prefix_of_strip {L line w : Str}
    (hw : whitespace_prefix_of line = some w) (hpre : L <+: w) :
    whitespace_prefix_of (strip_prefix_or L line) = some (w.drop L.length) := by
  unfold whitespace_prefix_of at hw
  by_cases hall : line.all isWsChar = true
  · rw [if_pos hall] at hw; exact absurd hw (by simp)
  · rw [if_neg hall] at hw
    have hw' : w = line.takeWhile isWsChar := (Option.some.injEq _ _ ▸ hw).symm
    have hwl : w <+: line := hw' ▸ List.takeWhile_prefix _
    have hLl : L <+: line := hpre.trans hwl
    have hst : strip_prefix_or L line = line.drop L.length := by
      unfold strip_prefix_or
      rw [if_pos ((List.isPrefixOf_iff_prefix).mpr hLl)]
    obtain ⟨tw, htw⟩ := hpre
    have hlen : L.length ≤ w.length := by
      rw [← htw, List.length_append]; omega
    have hline : line = w ++ line.dropWhile isWsChar := by
      rw [hw', List.takeWhile_append_dropWhile]
    have hdrop : line.drop L.length = w.drop L.length ++ line.dropWhile isWsChar := by
      conv_lhs => rw [hline]
      rw [List.drop_append_eq_append_drop, Nat.sub_eq_zero_of_le hlen, List.drop_zero]
    have hwall : w.all isWsChar = true := by
      rw [hw']
      exact List.all_eq_true.mpr (fun c hc => List.mem_takeWhile_imp hc)
    have hwdall : (w.drop L.length).all isWsChar = true :=
      all_of_subset hwall (fun c hc => List.drop_subset _ _ hc)
    have hnotall : (line.drop L.length).all isWsChar = false := by
      rcases Bool.eq_false_or_eq_true ((line.drop L.length).all isWsChar) with h | h
      · exfalso
        apply hall
        rw [hdrop] at h
        rw [List.all_append, Bool.and_eq_true] at h
        rw [hline, List.all_append, hwall, Bool.true_and]
        exact h.2
      · exact h
    unfold whitespace_prefix_of
    rw [hst, if_neg (by rw [hnotall]; exact Bool.false_ne_true)]
    congr 1
    rw [hdrop, takeWhile_append_all _ hwdall, takeWhile_dropWhile_nil,
      List.append_nil]

theorem whitespace_prefix_of_strip_none {L line : Str}
    (hw : whitespace_prefix_of line = none) :
    whitespace_prefix_of (strip_prefix_or L line) = none := by
  unfold whitespace_prefix_of at hw
  by_cases hall : line.all isWsChar = true
  · have hsub : ∀ c ∈ strip_prefix_or L line, c ∈ line := fun c hc =>
      mem_of_mem_strip_prefix_or hc
    unfold whitespace_prefix_of
    rw [if_pos (all_of_subset hall hsub)]
  · rw [if_neg hall] at hw; exact absurd hw (by simp)

theorem filterMap_wsPfx_strip (L : Str) : ∀ lines : List Str,
    (∀ w ∈ lines.filterMap whitespace_prefix_of, L <+: w) →
    (lines.map (strip_prefix_or L)).filterMap whitespace_prefix_of =
      (lines.filterMap whitespace_prefix_of).map (fun w => w.drop L.length) := by
  intro lines
  induction lines with
  | nil => intro _; rfl
  | cons l ls ih =>
    intro hws
    cases hw : whitespace_prefix_of l with
    | none =>
      have hstrip : whitespace_prefix_of (strip_prefix_or L l) = none :=
        whitespace_prefix_of_strip_none hw
      rw [List.map_cons, List.filterMap_cons_none hstrip,
        List.filterMap_cons_none hw]
      exact ih (fun w hwmem => hws w
        (by rw [List.filterMap_cons_none hw]; exact hwmem))
    | some w =>
      have hwmem : w ∈ (l :: ls).filterMap whitespace_prefix_of := by
        rw [List.filterMap_cons_some hw]
        exact List.mem_cons_self _ _
      have hstrip : whitespace_prefix_of (strip_prefix_or L l) = some (w.drop L.length) :=
        whitespace_prefix_of_strip hw (hws w hwmem)
      rw [List.map_cons, List.filterMap_cons_some hstrip,
        List.filterMap_cons_some hw, List.map_cons]
      rw [ih (fun w' hw' => hws w'
        (by rw [List.filterMap_cons_some hw]; exact List.mem_cons_of_mem _ hw'))]

theorem strip_prefix_or_nil (l : Str) : strip_prefix_or [] l = l := by
  unfold strip_prefix_or
  rw [if_pos ((List.isPrefixOf_iff_prefix).mpr List.nil_prefix)]
  simp

/-- Claim C9: de-indentation is idempotent — applying the program's
de-indentation (compute the shared whitespace prefix via `whitespace_prefix`
and `longest_prefix`, strip it from every line as `write_lines` does) twice
gives the same result as applying it once; indeed the shared prefix computed
the second time is always the empty string. -/
theorem claim_c9_deindent_idempotent (lines : List Str) :
    deindent (deindent lines) = deindent lines ∧
    longest_prefix_of ((deindent lines).filterMap whitespace_prefix_of) = [] := by
  have hws : ∀ w ∈ lines.filterMap whitespace_prefix_of,
      longest_prefix_of (lines.filterMap whitespace_prefix_of) <+: w :=
    fun w hw => longest_prefix_of_pref hw
  have hcand :
      (deindent lines).filterMap whitespace_prefix_of =
        (lines.filterMap whitespace_prefix_of).map
          (fun w => w.drop (longest_prefix_of (lines.filterMap whitespace_prefix_of)).length) :=
    filterMap_wsPfx_strip _ lines hws
  have h2 : longest_prefix_of ((deindent lines).filterMap whitespace_prefix_of) = [] := by
    rw [hcand]
    exact longest_prefix_of_residual _
  refine ⟨?_, h2⟩
  show (deindent lines).map
      (strip_prefix_or (longest_prefix_of ((deindent lines).filterMap whitespace_prefix_of)))
    = deindent lines
  rw [h2, show strip_prefix_or ([] : Str) = fun l => l from funext strip_prefix_or_nil]
  exact List.map_id' _

/-! ## Claim C1: counting fence markers -/

theorem countOcc_cons (pat : Str) (c : Char) (s : Str) :
    countOcc pat (c :: s) =
      (if pat.isPrefixOf (c :: s) = true then 1 else 0) + countOcc pat s := rfl

theorem tickPat_head : tickPat.head? = some tick := by decide

theorem openPat_head : openPat.head? = some tick := by decide

theorem beq_tick_eq_false {c : Char} (hc : c ≠ tick) : (tick == c) = false :=
  beq_eq_false_iff_ne.mpr (fun h => hc h.symm)

theorem countOcc_cons_ne {pat : Str} (hp : pat.head? = some tick) {c : Char}
    (hc : c ≠ tick) (s : Str) : countOcc pat (c :: s) = countOcc pat s := by
  cases pat with
  | nil => simp at hp
  | cons p0 pr =>
    have hp0 : p0 = tick := by simpa using hp
    subst hp0
    rw [countOcc_cons, List.isPrefixOf_cons₂, beq_tick_eq_false hc]
    simp

theorem countOcc_append_tickfree {pat : Str} (hp : pat.head? = some tick) :
    ∀ (a b : Str), tick ∉ a → countOcc pat (a ++ b) = countOcc pat b := by
  intro a
  induction a with
  | nil => intro b _; rfl
  | cons c cs ih =>
    intro b ha
    have hc : c ≠ tick := fun h => ha (h ▸ List.mem_cons_self _ _)
    show countOcc pat (c :: (cs ++ b)) = countOcc pat b
    rw [countOcc_cons_ne hp hc, ih b (fun hm => ha (List.mem_cons_of_mem _ hm))]

theorem countOcc_eq_zero {pat s : Str} (hp : pat.head? = some tick) (hs : tick ∉ s) :
    countOcc pat s = 0 := by
  have h := countOcc_append_tickfree hp s [] hs
  rw [List.append_nil] at h
  rw [h]
  rfl

theorem isPrefixOf_append_self (l r : Str) : l.isPrefixOf (l ++ r) = true :=
  (List.isPrefixOf_iff_prefix).mpr ⟨r, rfl⟩

theorem countOcc_tick_run {c : Char} (hc : c ≠ tick) (r : Str) :
    countOcc tickPat (tick :: tick :: tick :: c :: r) = 1 + countOcc tickPat (c :: r) := by
  have h1 : tickPat.isPrefixOf (tick :: tick :: tick :: c :: r) = true :=
    isPrefixOf_append_self tickPat (c :: r)
  have h2 : tickPat.isPrefixOf (tick :: tick :: c :: r) = false := by
    show (tick :: tick :: tick :: ([] : Str)).isPrefixOf (tick :: tick :: c :: r) = false
    rw [List.isPrefixOf_cons₂, List.isPrefixOf_cons₂, List.isPrefixOf_cons₂,
      beq_tick_eq_false hc]
    simp
  have h3 : tickPat.isPrefixOf (tick :: c :: r) = false := by
    show (tick :: tick :: tick :: ([] : Str)).isPrefixOf (tick :: c :: r) = false
    rw [List.isPrefixOf_cons₂, List.isPrefixOf_cons₂, beq_tick_eq_false hc]
    simp
  rw [countOcc_cons, h1, countOcc_cons, h2, countOcc_cons, h3]
  simp

theorem countOcc_open_run (r : Str) :
    countOcc openPat (openPat ++ ('\n' :: r)) = 1 + countOcc openPat ('\n' :: r) := by
  have h1 : openPat.isPrefixOf
      (tick :: tick :: tick :: ('r' :: (str "ust,ignore" ++ ('\n' :: r)))) = true :=
    isPrefixOf_append_self openPat ('\n' :: r)
  have h2 : openPat.isPrefixOf
      (tick :: tick :: ('r' :: (str "ust,ignore" ++ ('\n' :: r)))) = false := by
    show (tick :: tick :: tick :: str "rust,ignore").isPrefixOf
      (tick :: tick :: ('r' :: (str "ust,ignore" ++ ('\n' :: r)))) = false
    rw [List.isPrefixOf_cons₂, List.isPrefixOf_cons₂, List.isPrefixOf_cons₂,
      show (tick == 'r') = false from by decide]
    simp
  have h3 : openPat.isPrefixOf
      (tick :: ('r' :: (str "ust,ignore" ++ ('\n' :: r)))) = false := by
    show (tick :: tick :: tick :: str "rust,ignore").isPrefixOf
      (tick :: ('r' :: (str "ust,ignore" ++ ('\n' :: r)))) = false
    rw [List.isPrefixOf_cons₂, List.isPrefixOf_cons₂,
      show (tick == 'r') = false from by decide]
    simp
  show countOcc openPat
    (tick :: tick :: tick :: ('r' :: (str "ust,ignore" ++ ('\n' :: r)))) = _
  rw [countOcc_cons, h1, countOcc_cons, h2, countOcc_cons, h3,
    countOcc_cons_ne openPat_head (show ('r' : Char) ≠ tick from by decide),
    countOcc_append_tickfree openPat_head (str "ust,ignore") ('\n' :: r) (by decide)]
  simp

theorem fence_count (A M : Str) (hA : tick ∉ A) (hM : tick ∉ M) :
    countOcc tickPat ((A ++ fenceOpen ++ M) ++ str "\n```" ++ str "\n") = 2 ∧
    countOcc openPat ((A ++ fenceOpen ++ M) ++ str "\n```" ++ str "\n") = 1 := by
  have htail : fenceOpen ++ (M ++ (str "\n```" ++ str "\n")) =
      '\n' :: '\n' :: (openPat ++ ('\n' :: (M ++ str "\n```\n"))) := by
    show ('\n' :: '\n' :: (openPat ++ ['\n'])) ++ (M ++ (str "\n```" ++ str "\n")) = _
    rw [show str "\n```" ++ str "\n" = str "\n```\n" from by decide]
    simp [List.cons_append, List.append_assoc]
  have hshape : (A ++ fenceOpen ++ M) ++ str "\n```" ++ str "\n" =
      A ++ ('\n' :: '\n' :: (openPat ++ ('\n' :: (M ++ str "\n```\n")))) := by
    rw [← htail]
    simp [List.append_assoc]
  constructor
  · rw [hshape, countOcc_append_tickfree tickPat_head A _ hA,
      countOcc_cons_ne tickPat_head (by decide),
      countOcc_cons_ne tickPat_head (by decide)]
    show countOcc tickPat
      (tick :: tick :: tick :: ('r' :: (str "ust,ignore" ++ ('\n' :: (M ++ str "\n```\n"))))) = 2
    rw [countOcc_tick_run (by decide),
      countOcc_cons_ne tickPat_head (show ('r' : Char) ≠ tick from by decide),
      countOcc_append_tickfree tickPat_head (str "ust,ignore") _ (by decide),
      countOcc_cons_ne tickPat_head (show ('\n' : Char) ≠ tick from by decide),
      countOcc_append_tickfree tickPat_head M _ hM,
      show countOcc tickPat (str "\n```\n") = 1 from by decide]
  · rw [hshape, countOcc_append_tickfree openPat_head A _ hA,
      countOcc_cons_ne openPat_head (by decide),
      countOcc_cons_ne openPat_head (by decide)]
    rw [show ('\n' : Char) :: (M ++ str "\n```\n") = '\n' :: (M ++ str "\n```\n") from rfl]
    rw [countOcc_open_run (M ++ str "\n```\n"),
      countOcc_cons_ne openPat_head (show ('\n' : Char) ≠ tick from by decide),
      countOcc_append_tickfree openPat_head M _ hM,
      show countOcc openPat (str "\n```\n") = 0 from by decide]

/-! ## Claim C1: the renderer invariant on comment-free input -/

theorem not_mem_of_nlOnly {ws : Str} (h : nlOnly ws = true) : tick ∉ ws := by
  intro hm
  have h2 := List.all_eq_true.mp h _ hm
  have h3 : tick = '\n' := by simpa using h2
  exact absurd h3 (by decide)

theorem nlOnly_replicate (n : Nat) : nlOnly (List.replicate n '\n') = true := by
  unfold nlOnly
  rw [List.all_eq_true]
  intro c hc
  rw [List.eq_of_mem_replicate hc]
  rfl

theorem tick_not_mem_write_lines {t pfx : Str} (h : tick ∉ t) :
    tick ∉ write_lines t pfx := by
  intro hm
  rcases mem_of_mem_write_lines hm with h' | h'
  · exact h h'
  · exact absurd h' (by decide)

theorem tick_not_mem_write_comment {t pfx : Str} (h : tick ∉ t) :
    tick ∉ write_comment t pfx := by
  intro hm
  rcases mem_of_mem_write_comment hm with h' | h'
  · exact h h'
  · exact absurd h' (by decide)

theorem mem_elemTextList {c : Char} : ∀ {rest : List Elem} {r : Elem},
    r ∈ rest → c ∈ elemText r → c ∈ elemTextList rest := by
  intro rest
  induction rest with
  | nil => intro r hr _; simp at hr
  | cons r0 rs ih =>
    intro r hr hc
    rw [show elemTextList (r0 :: rs) = elemText r0 ++ elemTextList rs from rfl]
    rcases List.mem_cons.mp hr with rfl | hr
    · exact List.mem_append.mpr (.inl hc)
    · exact List.mem_append.mpr (.inr (ih hr hc))

theorem tick_not_mem_flatten {rest : List Elem} {pfx : Str}
    (h : tick ∉ elemTextList rest) :
    tick ∉ (rest.map (fun r => write_lines (elemText r) pfx)).flatten := by
  intro hm
  rcases List.mem_flatten.mp hm with ⟨l, hl, hcl⟩
  rcases List.mem_map.mp hl with ⟨r, hr, rfl⟩
  rcases mem_of_mem_write_lines hcl with h' | h'
  · exact h (mem_elemTextList hr h')
  · exact absurd h' (by decide)

theorem good_write_token (pfx : Str) {st : RState} {t : Token}
    (hG : GoodSt st) (hcf : ¬ t.kind = TokKind.comment) (htk : tick ∉ t.text) :
    GoodSt (write_token st t pfx) ∧
    (st.in_code_block = true → (write_token st t pfx).in_code_block = true) := by
  obtain ⟨hnl, hcase⟩ := hG
  obtain ⟨k, tx⟩ := t
  cases k with
  | comment => exact absurd rfl hcf
  | whitespace => exact ⟨⟨nlOnly_replicate _, hcase⟩, fun h => h⟩
  | lCurly | rCurly | other =>
    refine ⟨⟨rfl, ?_⟩, fun h => h⟩
    rcases hcase with ⟨hf, hout⟩ | ⟨ht', A, M, heq, hA, hM⟩
    · refine .inl ⟨hf, ?_⟩
      intro hm
      rcases List.mem_append.mp hm with hm' | hm'
      · rcases List.mem_append.mp hm' with hm'' | hm''
        · exact hout hm''
        · exact not_mem_of_nlOnly hnl hm''
      · exact absurd hm' (tick_not_mem_write_lines htk)
    · refine .inr ⟨ht', A, M ++ st.whitespace ++ write_lines tx pfx, ?_, hA, ?_⟩
      · show st.output ++ st.whitespace ++ write_lines tx pfx = _
        rw [heq]
        simp [List.append_assoc]
      · intro hm
        rcases List.mem_append.mp hm with hm' | hm'
        · rcases List.mem_append.mp hm' with hm'' | hm''
          · exact hM hm''
          · exact not_mem_of_nlOnly hnl hm''
        · exact absurd hm' (tick_not_mem_write_lines htk)

theorem good_writeNodeRest (pfx : Str) (c : Elem) (rest : List Elem) {st : RState}
    (hG : GoodSt st) (htc : tick ∉ elemText c) (htr : tick ∉ elemTextList rest) :
    GoodSt (writeNodeRest st pfx c rest) ∧
    (writeNodeRest st pfx c rest).in_code_block = true := by
  obtain ⟨hnl, hcase⟩ := hG
  rw [writeNodeRest_eq]
  refine ⟨⟨rfl, .inr ⟨rfl, ?_⟩⟩, rfl⟩
  rcases hcase with ⟨hf, hout⟩ | ⟨ht', A, M, heq, hA, hM⟩
  · refine ⟨st.output, write_lines (elemText c) pfx
      ++ (rest.map (fun r => write_lines (elemText r) pfx)).flatten, ?_, hout, ?_⟩
    · rw [hf]
      show st.output ++ fenceOpen ++ write_lines (elemText c) pfx ++ _ = _
      simp [List.append_assoc]
    · intro hm
      rcases List.mem_append.mp hm with hm' | hm'
      · exact absurd hm' (tick_not_mem_write_lines htc)
      · exact absurd hm' (tick_not_mem_flatten htr)
  · refine ⟨A, M ++ st.whitespace ++ write_lines (elemText c) pfx
      ++ (rest.map (fun r => write_lines (elemText r) pfx)).flatten, ?_, hA, ?_⟩
    · rw [ht', heq]
      show A ++ fenceOpen ++ M ++ st.whitespace ++ write_lines (elemText c) pfx ++ _ = _
      simp [List.append_assoc]
    · intro hm
      rcases List.mem_append.mp hm with hm' | hm'
      · rcases List.mem_append.mp hm' with hm'' | hm''
        · rcases List.mem_append.mp hm'' with hm3 | hm3
          · exact hM hm3
          · exact not_mem_of_nlOnly hnl hm3
        · exact absurd hm'' (tick_not_mem_write_lines htc)
      · exact absurd hm' (tick_not_mem_flatten htr)

theorem good_writeNodeChildren (pfx : Str) : ∀ (cs : List Elem) (st : RState),
    GoodSt st → commentFreeList cs = true → tick ∉ elemTextList cs →
    GoodSt (writeNodeChildren st pfx cs) ∧
    (st.in_code_block = true → (writeNodeChildren st pfx cs).in_code_block = true) ∧
    (cs.any (fun c => !(isTrivia c)) = true →
      (writeNodeChildren st pfx cs).in_code_block = true) := by
  intro cs
  induction cs with
  | nil =>
    intro st hG _ _
    exact ⟨⟨rfl, hG.2⟩, fun h => h, fun h => by simp at h⟩
  | cons c0 rest ih =>
    intro st hG hcf htl
    rw [show commentFreeList (c0 :: rest) = (commentFree c0 && commentFreeList rest)
      from rfl, Bool.and_eq_true] at hcf
    have htl' : tick ∉ elemText c0 ∧ tick ∉ elemTextList rest := by
      rw [show elemTextList (c0 :: rest) = elemText c0 ++ elemTextList rest from rfl] at htl
      exact ⟨fun h => htl (List.mem_append.mpr (.inl h)),
        fun h => htl (List.mem_append.mpr (.inr h))⟩
    cases c0 with
    | node cs' =>
      have h := good_writeNodeRest pfx (Elem.node cs') rest hG htl'.1 htl'.2
      exact ⟨h.1, fun _ => h.2, fun _ => h.2⟩
    | token t =>
      have hkc : ¬ t.kind = TokKind.comment := by
        intro hk
        have h1 := hcf.1
        rw [show commentFree (.token t) = !(t.kind == TokKind.comment) from rfl, hk] at h1
        simp at h1
      by_cases htriv : (t.kind == TokKind.comment || t.kind == TokKind.whitespace) = true
      · have hgoal : writeNodeChildren st pfx (.token t :: rest) =
            writeNodeChildren (write_token st t pfx) pfx rest := by
          rw [show writeNodeChildren st pfx (.token t :: rest) =
            (if (t.kind == TokKind.comment || t.kind == TokKind.whitespace) = true then
              writeNodeChildren (write_token st t pfx) pfx rest
            else writeNodeRest st pfx (.token t) rest) from rfl]
          rw [if_pos htriv]
        rw [hgoal]
        have hstep := good_write_token pfx hG hkc htl'.1
        have hrec := ih (write_token st t pfx) hstep.1 hcf.2 htl'.2
        refine ⟨hrec.1, fun h => hrec.2.1 (hstep.2 h), fun hany => ?_⟩
        have hrest : rest.any (fun c => !(isTrivia c)) = true := by
          rw [List.any_cons] at hany
          simpa [show isTrivia (.token t) = true from htriv] using hany
        exact hrec.2.2 hrest
      · have hgoal : writeNodeChildren st pfx (.token t :: rest) =
            writeNodeRest st pfx (.token t) rest := by
          rw [show writeNodeChildren st pfx (.token t :: rest) =
            (if (t.kind == TokKind.comment || t.kind == TokKind.whitespace) = true then
              writeNodeChildren (write_token st t pfx) pfx rest
            else writeNodeRest st pfx (.token t) rest) from rfl]
          rw [if_neg htriv]
        rw [hgoal]
        have h := good_writeNodeRest pfx (Elem.token t) rest hG htl'.1 htl'.2
        exact ⟨h.1, fun _ => h.2, fun _ => h.2⟩

theorem good_step (pfx : Str) {st : RState} {e : Elem}
    (hG : GoodSt st) (hcf : commentFree e = true) (hte : tick ∉ elemText e) :
    GoodSt (write_node_or_token st e pfx) ∧
    (st.in_code_block = true → (write_node_or_token st e pfx).in_code_block = true) ∧
    (hasSubstChild e = true → (write_node_or_token st e pfx).in_code_block = true) := by
  cases e with
  | node cs =>
    have h := good_writeNodeChildren pfx cs st hG hcf hte
    exact ⟨h.1, h.2.1, fun hs => h.2.2 hs⟩
  | token t =>
    have hkc : ¬ t.kind = TokKind.comment := by
      intro hk
      rw [show commentFree (.token t) = !(t.kind == TokKind.comment) from rfl, hk] at hcf
      simp at hcf
    have h := good_write_token pfx hG hkc hte
    exact ⟨h.1, h.2, fun hs => by simp [hasSubstChild] at hs⟩

theorem good_fold (pfx : Str) : ∀ (es : List Elem) (st : RState),
    GoodSt st → (∀ e ∈ es, commentFree e = true ∧ tick ∉ elemText e) →
    GoodSt (es.foldl (fun s el => write_node_or_token s el pfx) st) ∧
    (st.in_code_block = true →
      (es.foldl (fun s el => write_node_or_token s el pfx) st).in_code_block = true) ∧
    ((∃ e ∈ es, hasSubstChild e = true) →
      (es.foldl (fun s el => write_node_or_token s el pfx) st).in_code_block = true) := by
  intro es
  induction es with
  | nil =>
    intro st hG _
    exact ⟨hG, fun h => h, fun ⟨e, he, _⟩ => by simp at he⟩
  | cons e0 rest ih =>
    intro st hG hall
    have h0 := hall e0 (List.mem_cons_self _ _)
    have hstep := good_step pfx hG h0.1 h0.2
    have hrec := ih (write_node_or_token st e0 pfx) hstep.1
      (fun e he => hall e (List.mem_cons_of_mem _ he))
    rw [List.foldl_cons]
    refine ⟨hrec.1, fun h => hrec.2.1 (hstep.2.1 h), fun ⟨e, he, hse⟩ => ?_⟩
    rcases List.mem_cons.mp he with rfl | he
    · exact hrec.2.1 (hstep.2.2 hse)
    · exact hrec.2.2 ⟨e, he, hse⟩

theorem prose_fold (pfx : Str) : ∀ (es : List Elem) (st : RState),
    st.in_code_block = false → tick ∉ st.output → nlOnly st.whitespace = true →
    (∀ e ∈ es, plainOrWs e = true ∧ tick ∉ elemText e) →
    (es.foldl (fun s el => write_node_or_token s el pfx) st).in_code_block = false ∧
    tick ∉ (es.foldl (fun s el => write_node_or_token s el pfx) st).output ∧
    nlOnly (es.foldl (fun s el => write_node_or_token s el pfx) st).whitespace = true := by
  intro es
  induction es with
  | nil => intro st h1 h2 h3 _; exact ⟨h1, h2, h3⟩
  | cons e0 rest ih =>
    intro st h1 h2 h3 hall
    have h0 := hall e0 (List.mem_cons_self _ _)
    have hall' := fun e he => hall e (List.mem_cons_of_mem _ he)
    rw [List.foldl_cons]
    obtain ⟨e0, rfl⟩ : ∃ t : Token, e0 = Elem.token t := by
      cases e0 with
      | node cs => simp [plainOrWs] at h0
      | token t => exact ⟨t, rfl⟩
    obtain ⟨k, tx⟩ := e0
    by_cases hk : k = TokKind.whitespace
    · subst hk
      exact ih _ h1 h2 (nlOnly_replicate _) hall'
    · have hcom : k = TokKind.comment ∧ is_doc tx = false := by
        have hp := h0.1
        rw [show plainOrWs (.token ⟨k, tx⟩) =
          ((k == TokKind.comment && !(is_doc tx)) || k == TokKind.whitespace) from rfl,
          Bool.or_eq_true] at hp
        rcases hp with h | h
        · rw [Bool.and_eq_true] at h
          exact ⟨beq_iff_eq.mp h.1, by simpa using h.2⟩
        · exact absurd (beq_iff_eq.mp h) hk
      obtain ⟨rfl, hdoc⟩ := hcom
      have hens : ensure_in_markdown st.in_code_block st.whitespace =
          (st.whitespace, false) := by
        unfold ensure_in_markdown
        rw [h1, if_neg (by exact Bool.false_ne_true)]
      have hstep : write_token st ⟨TokKind.comment, tx⟩ pfx =
          { output := st.output ++ st.whitespace ++ write_comment tx pfx,
            in_code_block := false, whitespace := [] } := by
        have hr : write_token st ⟨TokKind.comment, tx⟩ pfx =
            (if is_doc tx = true then
              { output := st.output ++ (ensure_in_code_block st.in_code_block st.whitespace).1
                  ++ write_lines tx pfx,
                in_code_block := (ensure_in_code_block st.in_code_block st.whitespace).2,
                whitespace := [] }
            else
              { output := st.output ++ (ensure_in_markdown st.in_code_block st.whitespace).1
                  ++ write_comment tx pfx,
                in_code_block := (ensure_in_markdown st.in_code_block st.whitespace).2,
                whitespace := [] }) := rfl
        rw [hr, if_neg (by rw [hdoc]; exact Bool.false_ne_true), hens]
      rw [show write_node_or_token st (Elem.token ⟨TokKind.comment, tx⟩) pfx =
        write_token st ⟨TokKind.comment, tx⟩ pfx from rfl, hstep]
      refine ih _ rfl ?_ rfl hall'
      intro hm
      rcases List.mem_append.mp hm with hm' | hm'
      · rcases List.mem_append.mp hm' with hm'' | hm''
        · exact h2 hm''
        · exact not_mem_of_nlOnly h3 hm''
      · exact absurd hm' (tick_not_mem_write_comment h0.2)

/-- Claim C1: (a) a body consisting solely of plain (non-doc) comment and
whitespace tokens renders with no fence marker at all; (b) a well-formed body
with no comment token anywhere — whitespace tokens and statement nodes, at
least one node carrying substantive content — renders with exactly one
opening fence marker and one closing fence marker; (c) a blank line between
two statements is preserved verbatim inside the fence.  Fence markers are
counted as occurrences of the backtick-fence substrings; the element texts
are assumed backtick-free so that fence markers can only come from the
renderer itself. -/
theorem claim_c1_fence_structure (pfx : Str) :
    (∀ es : List Elem, (∀ e ∈ es, plainOrWs e = true ∧ tick ∉ elemText e) →
      countOcc tickPat (write_body es pfx) = 0) ∧
    (∀ es : List Elem, (∀ e ∈ es, commentFree e = true ∧ tick ∉ elemText e) →
      (∃ e ∈ es, hasSubstChild e = true) →
      countOcc openPat (write_body es pfx) = 1 ∧
      countOcc tickPat (write_body es pfx) = 2) ∧
    (∀ a w b : Str,
      write_body [.node [.token ⟨.other, a⟩], .token ⟨.whitespace, w⟩,
        .node [.token ⟨.other, b⟩]] pfx =
      fenceOpen ++ write_lines a pfx ++ List.replicate (w.count '\n') '\n'
        ++ write_lines b pfx ++ str "\n```" ++ str "\n") := by
  refine ⟨fun es hall => ?_, fun es hall hnode => ?_, fun a w b => rfl⟩
  · have h := prose_fold pfx es ⟨[], false, []⟩ rfl (by simp) rfl hall
    have hwb : write_body es pfx = ((render_fold es pfx).output ++
        (if (render_fold es pfx).in_code_block then str "\n```" else [])) ++ str "\n" := rfl
    rw [hwb, show (render_fold es pfx).in_code_block = false from h.1]
    apply countOcc_eq_zero tickPat_head
    intro hm
    rcases List.mem_append.mp hm with hm' | hm'
    · rcases List.mem_append.mp hm' with hm'' | hm''
      · exact h.2.1 hm''
      · simp at hm''
    · exact absurd hm' (by decide)
  · have hinit : GoodSt ⟨[], false, []⟩ := ⟨rfl, .inl ⟨rfl, by simp⟩⟩
    have h := good_fold pfx es ⟨[], false, []⟩ hinit hall
    have hcode : (render_fold es pfx).in_code_block = true := h.2.2 hnode
    obtain ⟨A, M, heq, hA, hM⟩ : ∃ A M, (render_fold es pfx).output =
        A ++ fenceOpen ++ M ∧ tick ∉ A ∧ tick ∉ M := by
      rcases h.1.2 with ⟨hf, _⟩ | ⟨_, A, M, heq, hA, hM⟩
      · rw [show (render_fold es pfx).in_code_block = false from hf] at hcode
        exact absurd hcode (by decide)
      · exact ⟨A, M, heq, hA, hM⟩
    have hwb : write_body es pfx = ((render_fold es pfx).output ++
        (if (render_fold es pfx).in_code_block then str "\n```" else [])) ++ str "\n" := rfl
    rw [hwb, hcode, if_pos rfl, heq]
    exact ⟨(fence_count A M hA hM).2, (fence_count A M hA hM).1⟩

/-- Witness for C1: a prose-only body (one plain comment) has no fence
marker; a code-only body (one statement node) has exactly one opening and one
closing fence. -/
theorem claim_c1_fence_structure_witness :
    countOcc tickPat (write_body [.token ⟨.comment, str "// x"⟩] []) = 0 ∧
    countOcc openPat (write_body [.node [.token ⟨.other, str "x"⟩]] []) = 1 ∧
    countOcc tickPat (write_body [.node [.token ⟨.other, str "x"⟩]] []) = 2 :=
  ⟨(claim_c1_fence_structure []).1 _ (by decide),
   ((claim_c1_fence_structure []).2.1 _ (by decide)
      ⟨.node [.token ⟨.other, str "x"⟩], List.mem_cons_self _ _, by decide⟩).1,
   ((claim_c1_fence_structure []).2.1 _ (by decide)
      ⟨.node [.token ⟨.other, str "x"⟩], List.mem_cons_self _ _, by decide⟩).2⟩

end MdbookRust
